import Mathlib

/-
A shallow embedding of the Sudoku solver in `src/Sudoku.py`, together with
theorems settling the specification claims about it.

Conventions of the embedding:
* Python `Space` objects live in a flat list indexed by board position;
  group and neighbor relations are recomputed from the position arithmetic
  of `Sudoku.__init__` instead of being stored as object references.
* Python `set`s are represented as duplicate-free lists used only through
  membership, insertion and removal, matching the set semantics the source
  relies on; iteration orders that are arbitrary in Python (set iteration)
  are fixed to ascending index order here.
* Machine recursion that Python runs unboundedly (the worklist loop, the
  solve loop, the backtracking recursion) is given an explicit fuel
  parameter; all safety statements proved below hold for every fuel value,
  and the termination claim is stated as the existence of sufficient fuel.
-/

set_option maxRecDepth 4000

namespace SudokuSpec

/-- Insertion into a Python set represented as a duplicate-free list:
`s.add(v)` adds `v` only when it is not yet a member. -/
def setAdd (l : List Nat) (v : Nat) : List Nat :=
  if v ∈ l then l else l ++ [v]

/-- Python class `Space` (`src/Sudoku.py`): a cell holding an optional value
and the list `futures` of remaining candidate values. -/
structure Space where
  value : Option Nat
  futures : List Nat
deriving DecidableEq

instance : Inhabited Space := ⟨⟨none, []⟩⟩

/-- Python `Space.__init__`: a cell assigned at construction gets an empty
candidate list, an unknown cell gets candidates `[1, ..., n^2]`
(`[*range(1, n**2 + 1)]`). -/
def Space.init (v : Option Nat) (n : Nat) : Space :=
  match v with
  | some w => ⟨some w, []⟩
  | none => ⟨none, List.range' 1 (n ^ 2)⟩

/-- Python class `UniqueQueue`: a FIFO queue (`que`) together with the set of
items currently in the queue (`set`), used to suppress duplicate insertions. -/
structure UniqueQueue where
  que : List Nat
  set : List Nat
deriving DecidableEq

/-- Python `UniqueQueue.put`: insert at the back unless already pending. -/
def UniqueQueue.put (q : UniqueQueue) (item : Nat) : UniqueQueue :=
  if item ∈ q.set then q else ⟨q.que ++ [item], q.set ++ [item]⟩

/-- Python `UniqueQueue.get`: pop the front item and remove it from the
membership set; on an empty queue return `None`. -/
def UniqueQueue.get (q : UniqueQueue) : Option Nat × UniqueQueue :=
  match q.que with
  | [] => (none, q)
  | x :: xs => (some x, ⟨xs, q.set.erase x⟩)

/-- Python `UniqueQueue.empty`: `qsize() == 0`. -/
def UniqueQueue.empty (q : UniqueQueue) : Bool := q.que.isEmpty

/-- Block index of position `i`: Python `(i // n % n) + n * (i // ((n**2) * n))`. -/
def blockIdx (n i : Nat) : Nat := i / n % n + n * (i / (n ^ 2 * n))

/-- Row index of position `i`: Python `i // (n**2)`. -/
def rowIdx (n i : Nat) : Nat := i / n ^ 2

/-- Column index of position `i`: Python `i % (n**2)`. -/
def colIdx (n i : Nat) : Nat := i % n ^ 2

/-- The positions of block `g`, in ascending order. -/
def blockCells (n g : Nat) : List Nat :=
  (List.range (n ^ 4)).filter fun i => decide (blockIdx n i = g)

/-- The positions of row `g`, in ascending order. -/
def rowCells (n g : Nat) : List Nat :=
  (List.range (n ^ 4)).filter fun i => decide (rowIdx n i = g)

/-- The positions of column `g`, in ascending order. -/
def colCells (n g : Nat) : List Nat :=
  (List.range (n ^ 4)).filter fun i => decide (colIdx n i = g)

/-- The neighbors of position `i`: Python `Space.set_groups` takes the union
of the cell's block, row and column and removes the cell itself. -/
def neighbors (n i : Nat) : List Nat :=
  (List.range (n ^ 4)).filter fun j =>
    decide (j ≠ i ∧ (blockIdx n j = blockIdx n i ∨ rowIdx n j = rowIdx n i ∨
      colIdx n j = colIdx n i))

/-- Python `Sudoku` board state: cells, the modified-queue, and the solver
bookkeeping fields `n`, `depth` and `iter_wide` set in `__init__`.
The shared `states` set and the statistics counters are threaded
separately (see `SearchState`). -/
structure Board where
  n : Nat
  spaces : List Space
  mod_q : UniqueQueue
  depth : Nat
  iter_wide : Nat
deriving DecidableEq

/-- The body of Python `Sudoku.__init__` once the layout has been indexed:
build the `n^4` cells from the first `n^4` layout entries and put every cell
on the modified queue.  (Group membership is recomputed by position
arithmetic, see `blockCells`/`rowCells`/`colCells`/`neighbors`.) -/
def mkBoard (layout : List (Option Nat)) (n : Nat) : Board :=
  { n := n
  , spaces := (List.range (n ^ 4)).map fun i => Space.init (layout.getD i none) n
  , mod_q := (List.range (n ^ 4)).foldl UniqueQueue.put ⟨[], []⟩
  , depth := 0
  , iter_wide := 0 }

/-- Python `Sudoku(starting_layout, n)` as a fallible constructor:
`starting_layout[i]` is read for every `i < n^4`, so a layout shorter than
`n^4` raises an uncaught `IndexError`; the source performs no other
validation whatsoever (no length check, no value-range check, and no
`InvalidLayout` exception exists anywhere in the code). -/
def sudokuNew (layout : List (Option Nat)) (n : Nat) : Option Board :=
  if n ^ 4 ≤ layout.length then some (mkBoard layout n) else none

/-- Python `Sudoku.get_state`: the list of cell values in position order. -/
def get_state (spaces : List Space) : List (Option Nat) :=
  spaces.map Space.value

/-- Python `Sudoku.has_conflict`: some unassigned cell has no candidates
left, or some assigned cell has a neighbor with the same value. -/
def has_conflict (b : Board) : Bool :=
  ((List.range (b.n ^ 4)).any fun k =>
    (b.spaces.getD k default).value.isNone &&
      (b.spaces.getD k default).futures.isEmpty)
  || ((List.range (b.n ^ 4)).any fun k =>
    (b.spaces.getD k default).value.isSome &&
      ((neighbors b.n k).any fun j =>
        (b.spaces.getD j default).value == (b.spaces.getD k default).value))

/-- Python `Sudoku.is_solved`: the modified queue is empty, every cell is
assigned, and there is no conflict. -/
def is_solved (b : Board) : Bool :=
  if !b.mod_q.empty then false
  else if (List.range (b.n ^ 4)).any
      (fun k => (b.spaces.getD k default).value.isNone) then false
  else !has_conflict b

/-- The neighbor loop inside Python `Sudoku.constraint_solve`, for the
dequeued cell `c`: for each neighbor in turn, remove the neighbor's value
from `c`'s candidates (re-enqueueing `c`), remove `c`'s value from the
neighbor's candidates (enqueueing the neighbor), and assign any neighbor
whose candidate list has shrunk to a single value (enqueueing it). -/
def neighborPass (sp : List Space) (q : UniqueQueue) (c : Nat) :
    List Nat → List Space × UniqueQueue
  | [] => (sp, q)
  | nb :: rest =>
    let cs := sp.getD c default
    let ns := sp.getD nb default
    let step1 : List Space × UniqueQueue :=
      match ns.value with
      | some v =>
        if v ∈ cs.futures then
          (sp.set c { cs with futures := cs.futures.erase v }, q.put c)
        else (sp, q)
      | none => (sp, q)
    let cs1 := step1.1.getD c default
    let ns1 := step1.1.getD nb default
    let step2 : List Space × UniqueQueue :=
      match cs1.value with
      | some v =>
        if v ∈ ns1.futures then
          (step1.1.set nb { ns1 with futures := ns1.futures.erase v }, step1.2.put nb)
        else step1
      | none => step1
    let ns2 := step2.1.getD nb default
    let step3 : List Space × UniqueQueue :=
      if ns2.futures.length = 1 then
        (step2.1.set nb ⟨some (ns2.futures.headD 0), []⟩, step2.2.put nb)
      else step2
    neighborPass step3.1 step3.2 c rest

/-- One iteration of the `while` loop of Python `Sudoku.constraint_solve`:
dequeue a cell, assign it if it has exactly one candidate left, then run
the neighbor loop. -/
def constraintStep (n : Nat) (sp : List Space) (q : UniqueQueue) :
    List Space × UniqueQueue :=
  match q.get with
  | (none, q') => (sp, q')
  | (some c, q') =>
    let cs := sp.getD c default
    let sp1 :=
      if cs.futures.length = 1 then sp.set c ⟨some (cs.futures.headD 0), []⟩
      else sp
    neighborPass sp1 q' c (neighbors n c)

/-- Python `Sudoku.constraint_solve`, with explicit fuel: loop while the
modified queue is non-empty. -/
def constraint_solve (n : Nat) : Nat → List Space × UniqueQueue → List Space × UniqueQueue
  | 0, s => s
  | fuel + 1, (sp, q) =>
    if q.que.isEmpty then (sp, q)
    else constraint_solve n fuel (constraintStep n sp q)

/-- Python `powerset`: every subset of size at least 2 of the input,
enumerated here as sublists (the source materializes them as a set of
tuples, whose iteration order is arbitrary). -/
def powerset (l : List Nat) : List (List Nat) :=
  l.sublists.filter fun s => decide (2 ≤ s.length)

/-- The union `set_nums` of the candidate values of the cells of `subset`,
as a duplicate-free list (Python builds a `set` with `update`). -/
def futUnion (sp : List Space) (subset : List Nat) : List Nat :=
  subset.foldl (fun acc k => (sp.getD k default).futures.foldl setAdd acc) []

/-- The inner removal loop of Python `Sudoku.update_naked_sets` for one
cell `k` of the group's unknown set: if `k` is outside the naked subset,
remove every value of the subset's candidate union `nums` from `k`'s
candidates (`s.futures.remove(n)` for each `n` present), enqueueing `k`
when at least one value was actually removed. -/
def nakedCellStep (subset nums : List Nat) (a : List Space × UniqueQueue)
    (k : Nat) : List Space × UniqueQueue :=
  if k ∈ subset then a
  else
    let s := a.1.getD k default
    if s.futures.any (fun v => decide (v ∈ nums)) then
      (a.1.set k { s with futures := nums.foldl List.erase s.futures },
       a.2.put k)
    else a

/-- Processing of one subset in Python `Sudoku.update_naked_sets`: if the
candidate union of the subset has exactly as many values as the subset has
cells, and the subset is proper in the group's unknown cells, erase each
value of the union from the candidates of every other unknown cell of the
group, enqueueing every cell that loses at least one candidate. -/
def nakedSubsetStep (unk : List Nat) (acc : List Space × UniqueQueue)
    (subset : List Nat) : List Space × UniqueQueue :=
  let nums := futUnion acc.1 subset
  if nums.length = subset.length ∧ subset.length < unk.length then
    unk.foldl (nakedCellStep subset nums) acc
  else acc

/-- Processing of one group in Python `Sudoku.update_naked_sets`: collect
the group's unassigned cells and run every subset of size at least 2. -/
def nakedGroupPass (acc : List Space × UniqueQueue) (g : List Nat) :
    List Space × UniqueQueue :=
  let unk := g.filter fun k => (acc.1.getD k default).value.isNone
  if unk.length > 0 then (powerset unk).foldl (nakedSubsetStep unk) acc
  else acc

/-- The group list built at the top of Python `Sudoku.update_naked_sets`:
for each index `i`, the block, row and column of that index, in order. -/
def groupsList (n : Nat) : List (List Nat) :=
  (List.range (n ^ 2)).foldr
    (fun i acc => blockCells n i :: rowCells n i :: colCells n i :: acc) []

/-- Python `Sudoku.update_naked_sets`. -/
def update_naked_sets (n : Nat) (sp : List Space) (q : UniqueQueue) :
    List Space × UniqueQueue :=
  (groupsList n).foldl nakedGroupPass (sp, q)

/-- The search state shared by reference across one backtracking recursion
tree: Python `self.states` (the set of serialized layouts already tried;
`str` on a list of optional ints is injective, so the layouts themselves
are stored here) and the class-level counters `Sudoku.stats`. -/
structure SearchState where
  states : List (List (Option Nat))
  cycles : Nat
  recurse : Nat
deriving DecidableEq

/-- The `while` loop at the top of Python `Sudoku.solve`, with fuel:
run `constraint_solve` then `update_naked_sets` until the board is solved,
conflicted, or a full fixpoint (state unchanged and queue empty) is
reached; each non-final iteration bumps the `cycles` counter. -/
def solveLoop : Nat → Board → SearchState → Board × SearchState
  | 0, b, st => (b, st)
  | fuel + 1, b, st =>
    if !is_solved b && !has_conflict b then
      let start := get_state b.spaces
      let step1 := constraint_solve b.n (fuel + 1) (b.spaces, b.mod_q)
      let step2 := update_naked_sets b.n step1.1 step1.2
      let b' := { b with spaces := step2.1, mod_q := step2.2 }
      if decide (get_state step2.1 = start) && step2.2.empty then (b', st)
      else solveLoop fuel b' { st with cycles := st.cycles + 1 }
    else (b, st)

/-- The widening thresholds tried by the root call of Python
`Sudoku.solve`: `range(2, self.n**2)`, that is `2, 3, ..., n^2 - 1`. -/
def rootThresholds (n : Nat) : List Nat := List.range' 2 (n ^ 2 - 2)

/-- The inner candidate loop `for j in range(len(s.futures) - 1, 0, -1)` of
Python `Sudoku.recursive_backtrack`, for the chosen cell `k` at threshold
`i`.  `solveChild` is the solve procedure run on each freshly constructed
trial board (`new_game.solve()`).  The returned flag records whether the
loop exited through the `new_game.is_solved()` branch, i.e. whether some
trial produced a solved board that is being propagated upward. -/
def btTrials (solveChild : Board → SearchState → Board × SearchState)
    (i k : Nat) : Board → SearchState → Nat → Board × SearchState × Bool
  | b, st, 0 => (b, st, false)
  | b, st, j + 1 =>
    let st1 := { st with recurse := st.recurse + 1 }
    let s := b.spaces.getD k default
    let trial := (get_state b.spaces).set k (some (s.futures.getD (j + 1) 0))
    if trial ∈ st1.states then
      btTrials solveChild i k b st1 j
    else
      let st2 := { st1 with states := trial :: st1.states }
      let ng : Board :=
        { mkBoard trial b.n with depth := b.depth + 1, iter_wide := i }
      let res := solveChild ng st2
      if is_solved res.1 then
        ({ b with spaces := res.1.spaces }, res.2, true)
      else
        let fut' := s.futures.erase (s.futures.getD (j + 1) 0)
        if fut'.length = 1 then
          ({ b with spaces := b.spaces.set k ⟨some (fut'.headD 0), []⟩ },
           res.2, false)
        else
          btTrials solveChild i k
            { b with spaces := b.spaces.set k { s with futures := fut' } }
            res.2 j

/-- The outer cell loop `for k, s in self.spaces.items()` of Python
`Sudoku.recursive_backtrack` at threshold `i`: try every cell whose
candidate count lies in `[2, i]`; a solved trial short-circuits the loop. -/
def btCells (solveChild : Board → SearchState → Board × SearchState)
    (i : Nat) : Board → SearchState → List Nat → Board × SearchState × Bool
  | b, st, [] => (b, st, false)
  | b, st, k :: ks =>
    let s := b.spaces.getD k default
    if 2 ≤ s.futures.length ∧ s.futures.length ≤ i then
      match btTrials solveChild i k b st (s.futures.length - 1) with
      | (b', st', true) => (b', st', true)
      | (b', st', false) => btCells solveChild i b' st' ks
    else btCells solveChild i b st ks

/-- The root widening loop of Python `Sudoku.solve`:
`for i in range(2, self.n**2): self.spaces = self.recursive_backtrack(i)`.
Note the loop keeps running through the remaining thresholds even after a
trial has solved the board. -/
def btWiden (solveChild : Board → SearchState → Board × SearchState) :
    Board → SearchState → List Nat → Board × SearchState
  | b, st, [] => (b, st)
  | b, st, i :: is =>
    let res := btCells solveChild i b st (List.range (b.n ^ 4))
    btWiden solveChild res.1 res.2.1 is

/-- Python `Sudoku.solve`, with fuel bounding the recursion depth: run the
solve loop; if the board is stuck (neither solved nor conflicted), run the
backtracking search — at the root (depth 0) after clearing the shared
visited-state set, widening over `rootThresholds`; at nested depth with
the threshold `iter_wide` received from the parent. -/
def solveFuel : Nat → Board → SearchState → Board × SearchState
  | 0, b, st => (b, st)
  | fuel + 1, b, st =>
    let l := solveLoop (fuel + 1) b st
    let b1 := l.1
    let st1 := l.2
    if !is_solved b1 && !has_conflict b1 then
      if b1.depth = 0 then
        btWiden (fun b' st' => solveFuel fuel b' st') b1
          { st1 with states := [] } (rootThresholds b1.n)
      else
        let res := btCells (fun b' st' => solveFuel fuel b' st') b1.iter_wide
          b1 st1 (List.range (b1.n ^ 4))
        (res.1, res.2.1)
    else (b1, st1)

/-- Python `Sudoku.recursive_backtrack` at threshold `i` (the recursive
solves of the trial boards run with the given fuel). -/
def recursive_backtrack (fuel : Nat) (b : Board) (st : SearchState)
    (i : Nat) : Board × SearchState × Bool :=
  btCells (fun b' st' => solveFuel fuel b' st') i b st (List.range (b.n ^ 4))

/-- Well-formedness of a `UniqueQueue`: the queue holds no duplicates and
the membership set holds exactly the queued items.  This is the invariant
the Python wrapper maintains (`set` mirrors the contents of `que`). -/
def UniqueQueue.Invariant (q : UniqueQueue) : Prop :=
  q.que.Nodup ∧ q.set.Nodup ∧ ∀ x : Nat, x ∈ q.set ↔ x ∈ q.que

/-- Total number of remaining candidate entries on the board; the strictly
decreasing part of the termination measure of `constraint_solve`. -/
def totalFut (sp : List Space) : Nat :=
  (sp.map fun s => s.futures.length).sum

/-- Ordering between successive worklist states: the candidate total never
grows, and if it stays put, nothing at all happened. -/
def StepOk (x y : List Space × UniqueQueue) : Prop :=
  totalFut y.1 ≤ totalFut x.1 ∧ (totalFut y.1 = totalFut x.1 → y = x)

/-- Relation between the cells at the start and at the end of a failed
backtracking pass: every cell keeps its assigned value, or was collapsed
to one of its own earlier candidates with its candidate list cleared;
candidate lists only ever narrow. -/
def ValueFrame (old new : List Space) : Prop :=
  ∀ m : Nat,
    (new.getD m default).futures ⊆ (old.getD m default).futures ∧
    ((new.getD m default).value = (old.getD m default).value ∨
      ∃ v, v ∈ (old.getD m default).futures ∧
        (new.getD m default).value = some v ∧
        (new.getD m default).futures = [])

/-- A solved 4x4 (`n = 2`) layout. -/
def goodLayout : List (Option Nat) :=
  [some 1, some 2, some 3, some 4,
   some 3, some 4, some 1, some 2,
   some 2, some 1, some 4, some 3,
   some 4, some 3, some 2, some 1]

/-- `goodLayout` with the out-of-range value `99` in place of the leading
`1`; no two cells of a common group share a value. -/
def badLayout : List (Option Nat) :=
  [some 99, some 2, some 3, some 4,
   some 3, some 4, some 1, some 2,
   some 2, some 1, some 4, some 3,
   some 4, some 3, some 2, some 1]

/-- The board built from `goodLayout` with its construction queue drained
by `constraint_solve` (16 dequeues and no further change). -/
def goodBoard : Board :=
  let b := mkBoard goodLayout 2
  let r := constraint_solve 2 20 (b.spaces, b.mod_q)
  { b with spaces := r.1, mod_q := r.2 }

/-- The board built from `badLayout` with its construction queue drained
by `constraint_solve`. -/
def badBoard : Board :=
  let b := mkBoard badLayout 2
  let r := constraint_solve 2 20 (b.spaces, b.mod_q)
  { b with spaces := r.1, mod_q := r.2 }

/-- A 4x4 board whose cell 0 is unassigned with the two candidates 1 and 3
while every other cell carries the `goodLayout` value; forcing candidate 3
duplicates the 3 of cell 4 (same column), so that trial fails at once. -/
def stuckSpaces : List Space :=
  Space.mk none [1, 3] :: (goodLayout.drop 1).map fun v => Space.mk v []

/-- The board around `stuckSpaces`, with an empty modified queue, as
`recursive_backtrack` receives its board (the solve loop has drained the
queue before the backtracking phase starts). -/
def stuckBoard : Board :=
  { n := 2, spaces := stuckSpaces, mod_q := ⟨[], []⟩, depth := 0, iter_wide := 0 }

/-- Cells for a small concrete naked-set instance: cells 0 and 1 form a
naked pair on `{1, 2}`, cell 2 still holds all three candidates. -/
def nakedDemoSpaces : List Space :=
  [Space.mk none [1, 2], Space.mk none [1, 2], Space.mk none [1, 2, 3]]

/- ------------------------------------------------------------------ -/
/- Helper lemmas                                                       -/
/- ------------------------------------------------------------------ -/

theorem Space.init_value (v : Option Nat) (n : Nat) :
    (Space.init v n).value = v := by
  cases v <;> rfl

theorem map_getD_range {α : Type} (l : List α) (d : α) :
    (List.range l.length).map (fun i => l.getD i d) = l := by
  apply List.ext_getElem
  · simp
  · intro i h1 h2
    simp [List.getD_eq_getElem?_getD, List.getElem?_eq_getElem h2]

theorem getD_set_self {α : Type} [Inhabited α] {l : List α} {i : Nat} {a : α}
    (h : i < l.length) : (l.set i a).getD i default = a := by
  simp [List.getD_eq_getElem?_getD, List.getElem?_set_self h]

theorem getD_set_ne {α : Type} [Inhabited α] {l : List α} {i j : Nat} {a : α}
    (h : i ≠ j) : (l.set i a).getD j default = l.getD j default := by
  simp [List.getD_eq_getElem?_getD, List.getElem?_set_ne h]

/- ------------------------------------------------------------------ -/
/- C10: construct-then-read is the identity on layouts                 -/
/- ------------------------------------------------------------------ -/

/-- C10: for every layout of length `n^4`, reading the state of a board
freshly constructed from that layout returns exactly that layout, in
position order. -/
theorem C10_construct_then_read (layout : List (Option Nat)) (n : Nat)
    (h : layout.length = n ^ 4) :
    (sudokuNew layout n).map (fun b => get_state b.spaces) = some layout := by
  have hle : n ^ 4 ≤ layout.length := Nat.le_of_eq h.symm
  simp only [sudokuNew, if_pos hle, Option.map_some', mkBoard, get_state,
    List.map_map, Option.some.injEq]
  have : (Space.value ∘ fun i => Space.init (layout.getD i none) n) =
      fun i => layout.getD i none := by
    funext i; simp [Space.init_value]
  rw [this, ← h, map_getD_range]

/-- Witness for C10 at a concrete layout. -/
theorem C10_witness :
    (sudokuNew goodLayout 2).map (fun b => get_state b.spaces) =
      some goodLayout :=
  C10_construct_then_read goodLayout 2 (by decide)

/- ------------------------------------------------------------------ -/
/- C2: there is no InvalidLayout check at construction                 -/
/- ------------------------------------------------------------------ -/

/-- C2 counterexample: `badLayout` contains the value 99, far outside
`[1, n^2] = [1, 4]`, yet construction succeeds; likewise a layout of
length 17 ≠ n^4 = 16 is accepted (its extra entry is ignored).  So
construction does not fail with `InvalidLayout` on such inputs — indeed no
`InvalidLayout` error exists in the source at all. -/
theorem C2_counterexample :
    some 99 ∈ badLayout ∧ badLayout.length = 2 ^ 4 ∧
    (sudokuNew badLayout 2).isSome = true ∧
    (badLayout ++ [some 5]).length ≠ 2 ^ 4 ∧
    (sudokuNew (badLayout ++ [some 5]) 2).isSome = true := by decide

/-- C2 amended: construction performs no validation whatsoever. It
succeeds exactly when the layout has at least `n^4` entries (extra entries
are ignored and values are accepted unchecked, out-of-range ones
included); a shorter layout fails with an uncaught `IndexError`, not with
an `InvalidLayout` error. -/
theorem C2_amended (layout : List (Option Nat)) (n : Nat) :
    (sudokuNew layout n).isSome = true ↔ n ^ 4 ≤ layout.length := by
  unfold sudokuNew
  split
  · simpa
  · simp only [Option.isSome_none, Bool.false_eq_true, false_iff]
    omega

/- ------------------------------------------------------------------ -/
/- C9: the worklist is a deduplicating FIFO queue                      -/
/- ------------------------------------------------------------------ -/

/-- C9: the propagation worklist deduplicates on insertion (a pending cell
is not re-added), `put` otherwise appends at the back and `get` removes at
the front (FIFO); the invariant that the pending entries are
duplicate-free and mirrored by the membership set is preserved by both
operations; and a dequeued cell leaves the membership set, so it can be
enqueued again afterwards. -/
theorem C9_unique_queue :
    (∀ (q : UniqueQueue) (x : Nat), x ∈ q.set → q.put x = q) ∧
    (∀ (q : UniqueQueue) (x : Nat), x ∉ q.set →
      (q.put x).que = q.que ++ [x] ∧ (q.put x).set = q.set ++ [x]) ∧
    (∀ (q : UniqueQueue) (x : Nat), q.Invariant → (q.put x).Invariant) ∧
    (∀ q : UniqueQueue, q.Invariant → q.get.2.Invariant) ∧
    (∀ (q : UniqueQueue) (x : Nat) (xs : List Nat), q.Invariant →
      q.que = x :: xs →
      q.get = (some x, ⟨xs, q.set.erase x⟩) ∧ x ∉ q.get.2.set ∧
      (q.get.2.put x).que = xs ++ [x]) := by
  have hput_mem : ∀ (q : UniqueQueue) (x : Nat), x ∈ q.set → q.put x = q := by
    intro q x hx
    simp [UniqueQueue.put, hx]
  have hput_new : ∀ (q : UniqueQueue) (x : Nat), x ∉ q.set →
      (q.put x).que = q.que ++ [x] ∧ (q.put x).set = q.set ++ [x] := by
    intro q x hx
    simp [UniqueQueue.put, hx]
  have hgetinv : ∀ q : UniqueQueue, q.Invariant → q.get.2.Invariant := by
    intro q hq
    obtain ⟨hque, hset, hiff⟩ := hq
    cases hq' : q.que with
    | nil => simpa [UniqueQueue.get, hq'] using ⟨hque, hset, hiff⟩
    | cons y ys =>
      rw [hq'] at hque
      have hget : q.get = (some y, ⟨ys, q.set.erase y⟩) := by
        simp [UniqueQueue.get, hq']
      rw [hget]
      refine ⟨(List.nodup_cons.mp hque).2, hset.erase y, fun z => ?_⟩
      simp only
      rw [hset.mem_erase_iff]
      constructor
      · rintro ⟨hz, hzs⟩
        have := (hiff z).mp hzs
        rw [hq'] at this
        rcases List.mem_cons.mp this with h | h
        · exact absurd h hz
        · exact h
      · intro hz
        have hzy : z ≠ y := by
          intro he
          exact (List.nodup_cons.mp hque).1 (he ▸ hz)
        exact ⟨hzy, (hiff z).mpr (hq' ▸ List.mem_cons_of_mem y hz)⟩
  refine ⟨hput_mem, hput_new, ?_, hgetinv, ?_⟩
  · intro q x hq
    obtain ⟨hque, hset, hiff⟩ := hq
    by_cases hx : x ∈ q.set
    · rw [hput_mem q x hx]; exact ⟨hque, hset, hiff⟩
    · obtain ⟨h1, h2⟩ := hput_new q x hx
      have hxq : x ∉ q.que := fun hc => hx ((hiff x).mpr hc)
      refine ⟨?_, ?_, fun z => ?_⟩
      · rw [h1, List.nodup_append]
        exact ⟨hque, List.nodup_singleton x, by simpa using hxq⟩
      · rw [h2, List.nodup_append]
        exact ⟨hset, List.nodup_singleton x, by simpa using hx⟩
      · rw [h1, h2]
        simp only [List.mem_append, List.mem_singleton]
        exact or_congr_left (hiff z)
  · intro q x xs hq hque
    obtain ⟨hnd, hset, hiff⟩ := hq
    have hget : q.get = (some x, ⟨xs, q.set.erase x⟩) := by
      simp [UniqueQueue.get, hque]
    have hxout : x ∉ q.get.2.set := by
      rw [hget]
      simp only
      rw [hset.mem_erase_iff]
      rintro ⟨hne, _⟩
      exact hne rfl
    refine ⟨hget, hxout, ?_⟩
    rw [hget] at hxout ⊢
    exact (hput_new _ x hxout).1

/- ------------------------------------------------------------------ -/
/- C6: the conflict and solved predicates                              -/
/- ------------------------------------------------------------------ -/

/-- C6: `has_conflict` holds iff some unassigned cell has an empty
candidate list or some assigned cell shares its value with an assigned
neighbor; `is_solved` holds iff the worklist is empty, every cell is
assigned, and there is no conflict. -/
theorem C6_predicates (b : Board) :
    (has_conflict b = true ↔
      ((∃ k, k < b.n ^ 4 ∧ (b.spaces.getD k default).value = none ∧
          (b.spaces.getD k default).futures = []) ∨
        (∃ k, k < b.n ^ 4 ∧ ∃ v, (b.spaces.getD k default).value = some v ∧
          ∃ j, j ∈ neighbors b.n k ∧
            (b.spaces.getD j default).value = some v))) ∧
    (is_solved b = true ↔
      (b.mod_q.que = [] ∧
        (∀ k, k < b.n ^ 4 → (b.spaces.getD k default).value ≠ none) ∧
        has_conflict b = false)) := by
  constructor
  · simp only [has_conflict, Bool.or_eq_true, List.any_eq_true,
      List.mem_range, Bool.and_eq_true, Option.isNone_iff_eq_none,
      List.isEmpty_iff, Option.isSome_iff_exists, beq_iff_eq]
    apply or_congr
    · constructor
      · rintro ⟨k, hk, h1, h2⟩; exact ⟨k, hk, h1, h2⟩
      · rintro ⟨k, hk, h1, h2⟩; exact ⟨k, hk, h1, h2⟩
    · constructor
      · rintro ⟨k, hk, ⟨v, hv⟩, j, hj, hjv⟩
        exact ⟨k, hk, v, hv, j, hj, by rw [hjv, hv]⟩
      · rintro ⟨k, hk, v, hv, j, hj, hjv⟩
        exact ⟨k, hk, ⟨v, hv⟩, j, hj, by rw [hjv, hv]⟩
  · simp only [is_solved, UniqueQueue.empty]
    by_cases hq : b.mod_q.que = []
    · by_cases hall : ∀ k, k < b.n ^ 4 → (b.spaces.getD k default).value ≠ none
      · have hany : ((List.range (b.n ^ 4)).any fun k =>
            (b.spaces.getD k default).value.isNone) = false := by
          simp only [List.any_eq_false, List.mem_range]
          intro k hk
          simpa using hall k hk
        simp [hq, hany, hall]
      · push_neg at hall
        obtain ⟨k, hk, hv⟩ := hall
        have hany : ((List.range (b.n ^ 4)).any fun k =>
            (b.spaces.getD k default).value.isNone) = true := by
          simp only [List.any_eq_true, List.mem_range]
          refine ⟨k, hk, ?_⟩
          simp only [Option.isNone_iff_eq_none, ← List.getD_eq_getElem?_getD]
          exact hv
        simp only [hq, List.isEmpty_nil, Bool.not_true, hany]
        simp only [if_true, if_false, Bool.false_eq_true, false_iff,
          not_and]
        intro _ h
        exact absurd hv (h k hk)
    · have hne : b.mod_q.que.isEmpty = false := by
        simpa [List.isEmpty_iff] using hq
      simp [hne, hq]

/-- Witness for C9 on a concrete queue. -/
theorem C9_witness :
    UniqueQueue.put ⟨[3], [3]⟩ 3 = ⟨[3], [3]⟩ ∧
    UniqueQueue.get ⟨[3, 7], [3, 7]⟩ = (some 3, ⟨[7], [7]⟩) ∧
    3 ∉ (UniqueQueue.get ⟨[3, 7], [3, 7]⟩).2.set ∧
    ((UniqueQueue.get ⟨[3, 7], [3, 7]⟩).2.put 3).que = [7] ++ [3] := by
  have h := C9_unique_queue
  have hinv : UniqueQueue.Invariant ⟨[3, 7], [3, 7]⟩ :=
    ⟨by decide, by decide, fun x => Iff.rfl⟩
  have hg := h.2.2.2.2 ⟨[3, 7], [3, 7]⟩ 3 [7] hinv rfl
  exact ⟨h.1 ⟨[3], [3]⟩ 3 (by decide), hg.1, hg.2.1, hg.2.2⟩

/- ------------------------------------------------------------------ -/
/- C3: the widening thresholds of the root solve loop                  -/
/- ------------------------------------------------------------------ -/

/-- C3 counterexample: the claim says the root threshold reaches
`N = n^2` inclusive, but for `n = 2` the thresholds are exactly `[2, 3]`
(`range(2, self.n**2)`), and `N = 4` is never tried. -/
theorem C3_counterexample :
    rootThresholds 2 = [2, 3] ∧ 2 ^ 2 ∉ rootThresholds 2 := by decide

/-- C3 amended: at the root, the threshold takes every value from 2 up to
`N - 1 = n^2 - 1` inclusive (not up to `N`), in increasing order, and the
widening loop runs through all of them; a non-root call runs exactly one
backtracking pass at the inherited threshold `iter_wide` and never widens. -/
theorem C3_amended (n : Nat) (hn : 2 ≤ n) :
    (∀ t, t ∈ rootThresholds n ↔ 2 ≤ t ∧ t ≤ n ^ 2 - 1) ∧
    List.Sorted (· < ·) (rootThresholds n) ∧
    (∀ (fuel : Nat) (b : Board) (st : SearchState),
      (!is_solved (solveLoop (fuel + 1) b st).1 &&
        !has_conflict (solveLoop (fuel + 1) b st).1) = true →
      ((solveLoop (fuel + 1) b st).1.depth = 0 →
        solveFuel (fuel + 1) b st =
          btWiden (fun b' st' => solveFuel fuel b' st')
            (solveLoop (fuel + 1) b st).1
            { (solveLoop (fuel + 1) b st).2 with states := [] }
            (rootThresholds (solveLoop (fuel + 1) b st).1.n)) ∧
      ((solveLoop (fuel + 1) b st).1.depth ≠ 0 →
        solveFuel (fuel + 1) b st =
          ((recursive_backtrack fuel (solveLoop (fuel + 1) b st).1
              (solveLoop (fuel + 1) b st).2
              (solveLoop (fuel + 1) b st).1.iter_wide).1,
           (recursive_backtrack fuel (solveLoop (fuel + 1) b st).1
              (solveLoop (fuel + 1) b st).2
              (solveLoop (fuel + 1) b st).1.iter_wide).2.1))) := by
  have h4 : 4 ≤ n ^ 2 := by
    calc 4 = 2 * 2 := rfl
    _ ≤ n * n := Nat.mul_le_mul hn hn
    _ = n ^ 2 := (sq n).symm
  refine ⟨?_, ?_, ?_⟩
  · intro t
    simp only [rootThresholds, List.mem_range'_1]
    omega
  · exact List.pairwise_lt_range' 2 (n ^ 2 - 2)
  · intro fuel b st h
    constructor
    · intro hd
      rw [solveFuel]
      simp only [h, hd, if_true, ite_true]
    · intro hd
      rw [solveFuel]
      simp only [h, if_true, ite_true, recursive_backtrack]
      rw [if_neg hd]

/-- Witness for C3 at `n = 2`. -/
theorem C3_witness :
    (3 ∈ rootThresholds 2 ↔ 2 ≤ 3 ∧ 3 ≤ 2 ^ 2 - 1) ∧
    List.Sorted (· < ·) (rootThresholds 2) :=
  ⟨(C3_amended 2 (by decide)).1 3, (C3_amended 2 (by decide)).2.1⟩

/- ------------------------------------------------------------------ -/
/- C7: the propagation engine terminates                               -/
/- ------------------------------------------------------------------ -/

theorem getD_oob {α : Type} [Inhabited α] {l : List α} {i : Nat}
    (h : l.length ≤ i) : l.getD i default = default := by
  simp [List.getD_eq_getElem?_getD, List.getElem?_eq_none h]

theorem totalFut_set (sp : List Space) (i : Nat) (a : Space)
    (h : i < sp.length) :
    totalFut (sp.set i a) + (sp.getD i default).futures.length =
      totalFut sp + a.futures.length := by
  induction sp generalizing i with
  | nil => simp at h
  | cons x xs ih =>
    cases i with
    | zero =>
      simp only [List.set_cons_zero, totalFut, List.map_cons, List.sum_cons,
        List.getD_cons_zero]
      omega
    | succ i =>
      simp only [List.set_cons_succ, totalFut, List.map_cons, List.sum_cons,
        List.getD_cons_succ]
      have := ih i (by simpa using Nat.lt_of_succ_lt_succ h)
      simp only [totalFut] at this
      omega

theorem stepOk_refl (x : List Space × UniqueQueue) : StepOk x x :=
  ⟨Nat.le_refl _, fun _ => rfl⟩

theorem stepOk_of_lt {x y : List Space × UniqueQueue}
    (h : totalFut y.1 < totalFut x.1) : StepOk x y :=
  ⟨Nat.le_of_lt h, fun he => absurd he (Nat.ne_of_lt h)⟩

theorem stepOk_trans {x y z : List Space × UniqueQueue}
    (h1 : StepOk x y) (h2 : StepOk y z) : StepOk x z := by
  refine ⟨Nat.le_trans h2.1 h1.1, fun he => ?_⟩
  have hy : totalFut y.1 = totalFut x.1 :=
    Nat.le_antisymm h1.1 (he ▸ h2.1)
  rw [h2.2 (he.trans hy.symm), h1.2 hy]

/-- Erasing a present candidate from a cell strictly shrinks the total. -/
theorem totalFut_erase_lt {sp : List Space} {idx v : Nat} {a : Space}
    (hv : v ∈ (sp.getD idx default).futures)
    (ha : a.futures = (sp.getD idx default).futures.erase v) :
    totalFut (sp.set idx a) < totalFut sp := by
  have hidx : idx < sp.length := by
    by_contra hc
    rw [getD_oob (Nat.le_of_not_lt hc)] at hv
    exact absurd hv (List.not_mem_nil v)
  have hset := totalFut_set sp idx a hidx
  have herase := List.length_erase_add_one hv
  rw [ha] at hset
  omega

/-- Clearing a one-candidate cell strictly shrinks the total. -/
theorem totalFut_clear_lt {sp : List Space} {idx : Nat} {a : Space}
    (h1 : (sp.getD idx default).futures.length = 1) (h2 : a.futures = []) :
    totalFut (sp.set idx a) < totalFut sp := by
  have hidx : idx < sp.length := by
    by_contra hc
    rw [getD_oob (Nat.le_of_not_lt hc)] at h1
    exact absurd h1 (by decide)
  have hset := totalFut_set sp idx a hidx
  rw [h2] at hset
  simp only [List.length_nil] at hset
  omega

theorem neighborPass_stepOk (nbs : List Nat) (sp : List Space)
    (q : UniqueQueue) (c : Nat) :
    StepOk (sp, q) (neighborPass sp q c nbs) := by
  induction nbs generalizing sp q with
  | nil => exact stepOk_refl _
  | cons nb rest ih =>
    simp only [neighborPass]
    set cs := sp.getD c default with hcs
    set ns := sp.getD nb default with hns
    set step1 : List Space × UniqueQueue :=
      match ns.value with
      | some v =>
        if v ∈ cs.futures then
          (sp.set c { cs with futures := cs.futures.erase v }, q.put c)
        else (sp, q)
      | none => (sp, q) with hstep1
    have h1 : StepOk (sp, q) step1 := by
      rw [hstep1]
      cases hv : ns.value with
      | none => exact stepOk_refl _
      | some v =>
        simp only
        by_cases hmem : v ∈ cs.futures
        · rw [if_pos hmem]
          exact stepOk_of_lt (totalFut_erase_lt (hcs ▸ hmem) rfl)
        · rw [if_neg hmem]
          exact stepOk_refl _
    set cs1 := step1.1.getD c default with hcs1
    set ns1 := step1.1.getD nb default with hns1
    set step2 : List Space × UniqueQueue :=
      match cs1.value with
      | some v =>
        if v ∈ ns1.futures then
          (step1.1.set nb { ns1 with futures := ns1.futures.erase v },
           step1.2.put nb)
        else step1
      | none => step1 with hstep2
    have h2 : StepOk step1 step2 := by
      rw [hstep2]
      cases hv : cs1.value with
      | none => exact stepOk_refl _
      | some v =>
        simp only
        by_cases hmem : v ∈ ns1.futures
        · rw [if_pos hmem]
          exact stepOk_of_lt (totalFut_erase_lt (hns1 ▸ hmem) rfl)
        · rw [if_neg hmem]
          exact stepOk_refl _
    set ns2 := step2.1.getD nb default with hns2
    set step3 : List Space × UniqueQueue :=
      if ns2.futures.length = 1 then
        (step2.1.set nb ⟨some (ns2.futures.headD 0), []⟩, step2.2.put nb)
      else step2 with hstep3
    have h3 : StepOk step2 step3 := by
      rw [hstep3]
      by_cases hone : ns2.futures.length = 1
      · rw [if_pos hone]
        exact stepOk_of_lt (totalFut_clear_lt (hns2 ▸ hone) rfl)
      · rw [if_neg hone]
        exact stepOk_refl _
    exact stepOk_trans (stepOk_trans (stepOk_trans h1 h2) h3)
      (ih step3.1 step3.2)

theorem constraintStep_lemma (n : Nat) (sp : List Space) (q : UniqueQueue)
    (c : Nat) (rest : List Nat) (hq : q.que = c :: rest) :
    totalFut (constraintStep n sp q).1 ≤ totalFut sp ∧
      (totalFut (constraintStep n sp q).1 = totalFut sp →
        (constraintStep n sp q).2.que = rest) := by
  have hget : q.get = (some c, ⟨rest, q.set.erase c⟩) := by
    simp [UniqueQueue.get, hq]
  rw [constraintStep, hget]
  simp only
  set cs := sp.getD c default with hcs
  set sp1 := if cs.futures.length = 1 then
      sp.set c ⟨some (cs.futures.headD 0), []⟩ else sp with hsp1
  have h0 : StepOk (sp, (⟨rest, q.set.erase c⟩ : UniqueQueue))
      (sp1, ⟨rest, q.set.erase c⟩) := by
    rw [hsp1]
    by_cases hone : cs.futures.length = 1
    · rw [if_pos hone]
      exact stepOk_of_lt (totalFut_clear_lt (hcs ▸ hone) rfl)
    · rw [if_neg hone]
      exact stepOk_refl _
  have h1 := neighborPass_stepOk (neighbors n c) sp1 ⟨rest, q.set.erase c⟩ c
  have h := stepOk_trans h0 h1
  refine ⟨h.1, fun he => ?_⟩
  rw [h.2 he]

/-- C7: the propagation engine terminates on every board: with enough fuel
the worklist loop of `constraint_solve` drains the modified queue to
empty, because every re-enqueue follows a strict shrink of some cell's
candidate list and the candidate total never grows. -/
theorem C7_propagation_terminates (n : Nat) (sp : List Space)
    (q : UniqueQueue) :
    ∃ fuel, (constraint_solve n fuel (sp, q)).2.que = [] := by
  suffices h : ∀ t m (sp : List Space) (q : UniqueQueue), totalFut sp ≤ t →
      q.que.length ≤ m →
      ∃ fuel, (constraint_solve n fuel (sp, q)).2.que = [] by
    exact h (totalFut sp) q.que.length sp q (Nat.le_refl _) (Nat.le_refl _)
  intro t
  induction t using Nat.strong_induction_on with
  | _ t iht =>
    intro m
    induction m with
    | zero =>
      intro sp q htot hlen
      have hnil : q.que = [] := List.length_eq_zero.mp (Nat.le_zero.mp hlen)
      exact ⟨0, hnil⟩
    | succ m ihm =>
      intro sp q htot hlen
      cases hq : q.que with
      | nil => exact ⟨0, hq⟩
      | cons c rest =>
        have hstep := constraintStep_lemma n sp q c rest hq
        have hrun : ∀ f, constraint_solve n (f + 1) (sp, q) =
            constraint_solve n f (constraintStep n sp q) := by
          intro f
          rw [constraint_solve]
          simp [hq]
        by_cases he :
            totalFut (constraintStep n sp q).1 = totalFut sp
        · have hq2 := hstep.2 he
          have hlen2 : (constraintStep n sp q).2.que.length ≤ m := by
            rw [hq2]
            have : q.que.length ≤ m + 1 := hlen
            rw [hq] at this
            simpa using Nat.le_of_succ_le_succ this
          obtain ⟨f, hf⟩ := ihm (constraintStep n sp q).1
            (constraintStep n sp q).2 (he ▸ htot) hlen2
          exact ⟨f + 1, by rw [hrun f]; exact hf⟩
        · have hlt : totalFut (constraintStep n sp q).1 < totalFut sp :=
            Nat.lt_of_le_of_ne hstep.1 he
          have hltt : totalFut (constraintStep n sp q).1 < t :=
            Nat.lt_of_lt_of_le hlt htot
          obtain ⟨f, hf⟩ := iht (totalFut (constraintStep n sp q).1) hltt
            (constraintStep n sp q).2.que.length (constraintStep n sp q).1
            (constraintStep n sp q).2 (Nat.le_refl _) (Nat.le_refl _)
          exact ⟨f + 1, by rw [hrun f]; exact hf⟩

/- ------------------------------------------------------------------ -/
/- C8: what a failed backtracking pass does to the board               -/
/- ------------------------------------------------------------------ -/

theorem valueFrame_refl (sp : List Space) : ValueFrame sp sp :=
  fun _ => ⟨fun _ h => h, Or.inl rfl⟩

theorem valueFrame_trans {sp0 sp1 sp2 : List Space}
    (h1 : ValueFrame sp0 sp1) (h2 : ValueFrame sp1 sp2) :
    ValueFrame sp0 sp2 := by
  intro m
  obtain ⟨hf1, hv1⟩ := h1 m
  obtain ⟨hf2, hv2⟩ := h2 m
  refine ⟨fun v hv => hf1 (hf2 hv), ?_⟩
  rcases hv2 with h | ⟨v, hvmem, hval, hfut⟩
  · rcases hv1 with h' | ⟨v, hvmem, hval, hfut⟩
    · exact Or.inl (h.trans h')
    · refine Or.inr ⟨v, hvmem, h.trans hval, ?_⟩
      have hsub : (sp2.getD m default).futures ⊆ [] := hfut ▸ hf2
      exact List.eq_nil_iff_forall_not_mem.mpr
        fun x hx => absurd (hsub hx) (List.not_mem_nil x)
  · exact Or.inr ⟨v, hf1 hvmem, hval, hfut⟩

/-- Replacing one cell by a cell with the same value and narrowed
candidates is a `ValueFrame` step. -/
theorem valueFrame_set_narrow {sp : List Space} {k : Nat} {a : Space}
    (hval : a.value = (sp.getD k default).value)
    (hfut : a.futures ⊆ (sp.getD k default).futures) :
    ValueFrame sp (sp.set k a) := by
  by_cases hk : k < sp.length
  · intro m
    by_cases hm : k = m
    · subst hm
      rw [getD_set_self hk]
      exact ⟨hfut, Or.inl hval⟩
    · rw [getD_set_ne hm]
      exact ⟨fun _ h => h, Or.inl rfl⟩
  · rw [List.set_eq_of_length_le (Nat.le_of_not_lt hk)]
    exact valueFrame_refl sp

/-- Assigning one cell to one of its own candidates, clearing its
candidates, is a `ValueFrame` step. -/
theorem valueFrame_set_assign {sp : List Space} {k v : Nat} {a : Space}
    (hval : a.value = some v) (hv : v ∈ (sp.getD k default).futures)
    (hfut : a.futures = []) :
    ValueFrame sp (sp.set k a) := by
  by_cases hk : k < sp.length
  · intro m
    by_cases hm : k = m
    · subst hm
      rw [getD_set_self hk]
      refine ⟨?_, Or.inr ⟨v, hv, hval, hfut⟩⟩
      rw [hfut]
      exact List.nil_subset _
    · rw [getD_set_ne hm]
      exact ⟨fun _ h => h, Or.inl rfl⟩
  · rw [List.set_eq_of_length_le (Nat.le_of_not_lt hk)]
    exact valueFrame_refl sp

theorem btTrials_frame (sc : Board → SearchState → Board × SearchState)
    (i k : Nat) : ∀ (j : Nat) (b : Board) (st : SearchState),
    (btTrials sc i k b st j).2.2 = false →
    ValueFrame b.spaces (btTrials sc i k b st j).1.spaces := by
  intro j
  induction j with
  | zero =>
    intro b st _
    exact valueFrame_refl _
  | succ j ih =>
    intro b st h
    rw [btTrials] at h ⊢
    simp only at h ⊢
    by_cases hmem : (get_state b.spaces).set k
        (some ((b.spaces.getD k default).futures.getD (j + 1) 0)) ∈ st.states
    · rw [if_pos hmem] at h ⊢
      exact ih b _ h
    · rw [if_neg hmem] at h ⊢
      by_cases hsolved : is_solved (sc
          { mkBoard ((get_state b.spaces).set k
              (some ((b.spaces.getD k default).futures.getD (j + 1) 0))) b.n
            with depth := b.depth + 1, iter_wide := i }
          { states := (get_state b.spaces).set k
              (some ((b.spaces.getD k default).futures.getD (j + 1) 0)) ::
                st.states,
            cycles := st.cycles, recurse := st.recurse + 1 }).1 = true
      · rw [if_pos hsolved] at h
        simp at h
      · rw [if_neg hsolved] at h ⊢
        by_cases hone : ((b.spaces.getD k default).futures.erase
            ((b.spaces.getD k default).futures.getD (j + 1) 0)).length = 1
        · rw [if_pos hone] at h ⊢
          simp only
          obtain ⟨w, hw⟩ := List.length_eq_one.mp hone
          refine valueFrame_set_assign (v := w) ?_ ?_ rfl
          · rw [hw]
            rfl
          · exact List.erase_subset _ _ (hw ▸ List.mem_singleton_self w)
        · rw [if_neg hone] at h ⊢
          refine valueFrame_trans ?_ (ih _ _ h)
          exact valueFrame_set_narrow rfl (List.erase_subset _ _)

theorem btCells_frame (sc : Board → SearchState → Board × SearchState)
    (i : Nat) : ∀ (ks : List Nat) (b : Board) (st : SearchState),
    (btCells sc i b st ks).2.2 = false →
    ValueFrame b.spaces (btCells sc i b st ks).1.spaces := by
  intro ks
  induction ks with
  | nil =>
    intro b st _
    exact valueFrame_refl _
  | cons k ks ih =>
    intro b st h
    rw [btCells] at h ⊢
    by_cases hcond : 2 ≤ (b.spaces.getD k default).futures.length ∧
        (b.spaces.getD k default).futures.length ≤ i
    · rw [if_pos hcond] at h ⊢
      have hfr0 := btTrials_frame sc i k
        ((b.spaces.getD k default).futures.length - 1) b st
      set t := btTrials sc i k b st
        ((b.spaces.getD k default).futures.length - 1) with ht
      clear_value t
      rcases t with ⟨b', st', flag⟩
      cases flag with
      | true =>
        exact absurd h (by simp)
      | false =>
        simp only at h ⊢
        exact valueFrame_trans (hfr0 rfl) (ih b' st' h)
    · rw [if_neg hcond] at h ⊢
      exact ih b st h

/-- C8 amended: whenever a backtracking pass returns without any trial
having produced a solved board (flag `false`), every cell of the returned
board either keeps its original assigned value or has been collapsed onto
one of its own remaining candidates (with its candidate list cleared),
and candidate lists only ever narrow. -/
theorem C8_amended (fuel : Nat) (b : Board) (st : SearchState) (i : Nat)
    (h : (recursive_backtrack fuel b st i).2.2 = false) :
    ValueFrame b.spaces (recursive_backtrack fuel b st i).1.spaces := by
  rw [recursive_backtrack] at h ⊢
  exact btCells_frame _ i (List.range (b.n ^ 4)) b st h

/-- C8 counterexample: on `stuckBoard` (conflict-free, unsolved) the
backtracking pass at threshold 2 finds no solved trial (flag `false`),
yet cell 0 comes back assigned (`some 1`) although it was unassigned when
the call started — the claim that the returned board is unchanged in
value-assignment terms is false. -/
theorem C8_counterexample :
    has_conflict stuckBoard = false ∧ is_solved stuckBoard = false ∧
    (recursive_backtrack 5 stuckBoard ⟨[], 0, 0⟩ 2).2.2 = false ∧
    (stuckBoard.spaces.getD 0 default).value = none ∧
    ((recursive_backtrack 5 stuckBoard ⟨[], 0, 0⟩ 2).1.spaces.getD 0
        default).value = some 1 := by decide

/-- Witness for C8 on the concrete stuck board. -/
theorem C8_witness :
    ValueFrame stuckBoard.spaces
      (recursive_backtrack 5 stuckBoard ⟨[], 0, 0⟩ 2).1.spaces :=
  C8_amended 5 stuckBoard ⟨[], 0, 0⟩ 2 (by decide)

/- ------------------------------------------------------------------ -/
/- C4: the candidate loop skips the lowest-indexed candidate           -/
/- ------------------------------------------------------------------ -/

/-- C4: the candidate loop `for j in range(len(s.futures) - 1, 0, -1)`
stops before index 0, so the lowest-indexed candidate of a chosen cell is
never trialled (the recursion on `j` bottoms out at `j = 0` without
building a trial).  Concretely, on `stuckBoard` — cell 0 has candidates
`[1, 3]` and qualifies at threshold 2 — the only trial ever attempted is
the layout forcing candidate 3: the layout forcing candidate 1 never
enters the visited-state set and only one trial is counted, even though 1
stayed a candidate of the cell throughout. -/
theorem C4_lowest_candidate_skipped :
    (∀ (sc : Board → SearchState → Board × SearchState) (i k : Nat)
      (b : Board) (st : SearchState), btTrials sc i k b st 0 = (b, st, false)) ∧
    (stuckBoard.spaces.getD 0 default).futures = [1, 3] ∧
    (recursive_backtrack 5 stuckBoard ⟨[], 0, 0⟩ 2).2.1.states =
      [(get_state stuckBoard.spaces).set 0 (some 3)] ∧
    (get_state stuckBoard.spaces).set 0 (some 1) ∉
      (recursive_backtrack 5 stuckBoard ⟨[], 0, 0⟩ 2).2.1.states ∧
    (recursive_backtrack 5 stuckBoard ⟨[], 0, 0⟩ 2).2.1.recurse = 1 :=
  ⟨fun _ _ _ _ _ => rfl, by decide⟩

/- ------------------------------------------------------------------ -/
/- C5: the naked-set elimination step                                  -/
/- ------------------------------------------------------------------ -/

theorem put_set_mono {q : UniqueQueue} {x : Nat} (y : Nat) (h : x ∈ q.set) :
    x ∈ (q.put y).set := by
  unfold UniqueQueue.put
  split
  · exact h
  · exact List.mem_append_left _ h

theorem put_set_self (q : UniqueQueue) (x : Nat) : x ∈ (q.put x).set := by
  unfold UniqueQueue.put
  split
  · assumption
  · exact List.mem_append_right _ (List.mem_singleton_self x)

theorem foldl_erase_subset (nums : List Nat) :
    ∀ fut : List Nat, nums.foldl List.erase fut ⊆ fut := by
  induction nums with
  | nil => intro fut; exact fun _ h => h
  | cons v vs ih =>
    intro fut
    exact fun x hx => List.erase_subset _ _ (ih (fut.erase v) hx)

theorem foldl_erase_of_disjoint (nums : List Nat) :
    ∀ fut : List Nat, (∀ v ∈ nums, v ∉ fut) →
      nums.foldl List.erase fut = fut := by
  induction nums with
  | nil => intro fut _; rfl
  | cons v vs ih =>
    intro fut h
    have hv : fut.erase v = fut :=
      List.erase_of_not_mem (h v (List.mem_cons_self v vs))
    simp only [List.foldl_cons, hv]
    exact ih fut fun w hw => h w (List.mem_cons_of_mem v hw)

theorem not_mem_foldl_erase (nums : List Nat) :
    ∀ fut : List Nat, fut.Nodup → ∀ v ∈ nums,
      v ∉ nums.foldl List.erase fut := by
  induction nums with
  | nil => intro fut _ v hv; exact absurd hv (List.not_mem_nil v)
  | cons w ws ih =>
    intro fut hnd v hv
    simp only [List.foldl_cons]
    rcases List.mem_cons.mp hv with hvw | hvs
    · subst hvw
      intro hc
      have := foldl_erase_subset ws (fut.erase v) hc
      rw [hnd.mem_erase_iff] at this
      exact this.1 rfl
    · exact ih (fut.erase w) (hnd.erase w) v hvs

theorem nakedFold_spec (subset nums : List Nat) :
    ∀ (l : List Nat) (acc : List Space × UniqueQueue),
    (∀ k, (k ∉ l ∨ k ∈ subset) →
      (l.foldl (nakedCellStep subset nums) acc).1.getD k default =
        acc.1.getD k default) ∧
    (∀ x, x ∈ acc.2.set →
      x ∈ (l.foldl (nakedCellStep subset nums) acc).2.set) ∧
    (l.Nodup → ∀ k ∈ l, k ∉ subset →
      ((l.foldl (nakedCellStep subset nums) acc).1.getD k default).value =
        (acc.1.getD k default).value ∧
      ((l.foldl (nakedCellStep subset nums) acc).1.getD k default).futures =
        nums.foldl List.erase (acc.1.getD k default).futures ∧
      ((∃ v ∈ (acc.1.getD k default).futures, v ∈ nums) →
        k ∈ (l.foldl (nakedCellStep subset nums) acc).2.set)) := by
  intro l
  induction l with
  | nil =>
    intro acc
    refine ⟨fun k _ => rfl, fun x h => h, fun _ k hk => absurd hk (List.not_mem_nil k)⟩
  | cons k0 rest ih =>
    intro acc
    simp only [List.foldl_cons]
    obtain ⟨ih1, ih2, ih3⟩ := ih (nakedCellStep subset nums acc k0)
    -- facts about the single step
    have hstep_ne : ∀ k, k ≠ k0 →
        (nakedCellStep subset nums acc k0).1.getD k default =
          acc.1.getD k default := by
      intro k hk
      unfold nakedCellStep
      split
      · rfl
      · simp only
        split
        · exact getD_set_ne fun he => hk he.symm
        · rfl
    have hstep_sub : k0 ∈ subset → nakedCellStep subset nums acc k0 = acc := by
      intro hk
      unfold nakedCellStep
      rw [if_pos hk]
    have hstep_mono : ∀ x, x ∈ acc.2.set →
        x ∈ (nakedCellStep subset nums acc k0).2.set := by
      intro x hx
      unfold nakedCellStep
      split
      · exact hx
      · simp only
        split
        · exact put_set_mono k0 hx
        · exact hx
    have hstep_k0 : k0 ∉ subset →
        ((nakedCellStep subset nums acc k0).1.getD k0 default).value =
          (acc.1.getD k0 default).value ∧
        ((nakedCellStep subset nums acc k0).1.getD k0 default).futures =
          nums.foldl List.erase (acc.1.getD k0 default).futures ∧
        ((∃ v ∈ (acc.1.getD k0 default).futures, v ∈ nums) →
          k0 ∈ (nakedCellStep subset nums acc k0).2.set) := by
      intro hk0
      unfold nakedCellStep
      rw [if_neg hk0]
      simp only
      by_cases hany : (acc.1.getD k0 default).futures.any
          (fun v => decide (v ∈ nums)) = true
      · rw [if_pos hany]
        simp only
        have hk0lt : k0 < acc.1.length := by
          by_contra hc
          rw [getD_oob (Nat.le_of_not_lt hc)] at hany
          simp [default] at hany
        rw [getD_set_self hk0lt]
        exact ⟨rfl, rfl, fun _ => put_set_self acc.2 k0⟩
      · rw [if_neg hany]
        simp only [List.any_eq_true, decide_eq_true_eq, not_exists, not_and] at hany
        refine ⟨rfl, ?_, ?_⟩
        · rw [foldl_erase_of_disjoint nums _ fun v hv hvf => hany v hvf hv]
        · rintro ⟨v, hvf, hvn⟩
          exact absurd hvn (hany v hvf)
    refine ⟨?_, ?_, ?_⟩
    · intro k hk
      have hne : k ≠ k0 ∨ k0 ∈ subset := by
        rcases hk with hk | hk
        · exact Or.inl fun he => hk (he ▸ List.mem_cons_self k0 rest)
        · by_cases he : k = k0
          · exact Or.inr (he ▸ hk)
          · exact Or.inl he
      have hrec := ih1 k (by
        rcases hk with hk | hk
        · exact Or.inl fun hc => hk (List.mem_cons_of_mem k0 hc)
        · exact Or.inr hk)
      rw [hrec]
      rcases hne with hne | hk0s
      · exact hstep_ne k hne
      · rw [hstep_sub hk0s]
    · intro x hx
      exact ih2 x (hstep_mono x hx)
    · intro hnd k hk hks
      have hndr : rest.Nodup := (List.nodup_cons.mp hnd).2
      have hk0r : k0 ∉ rest := (List.nodup_cons.mp hnd).1
      rcases List.mem_cons.mp hk with hkk0 | hkr
      · subst hkk0
        obtain ⟨hv0, hf0, he0⟩ := hstep_k0 hks
        have hput := ih1 k (Or.inl hk0r)
        rw [hput, hv0, hf0]
        refine ⟨rfl, rfl, fun hex => ih2 k (he0 hex)⟩
      · have hne : k ≠ k0 := fun he => hk0r (he ▸ hkr)
        have hstep := hstep_ne k hne
        obtain ⟨hv1, hf1, he1⟩ := ih3 hndr k hkr hks
        rw [hv1, hf1, hstep]
        refine ⟨rfl, rfl, fun hex => he1 (by rw [hstep]; exact hex)⟩

/-- C5: in the naked-set pass, processing one subset `S` of a group's
unknown cells `U` does the following and nothing else: when the candidate
union of `S` has exactly `|S|` values and `|S| < |U|`, every value of that
union is removed from the candidates of every cell of `U` outside `S`
(no value of the union survives there), every cell that actually lost a
candidate is put on the propagation worklist, and no other cell is
touched; when the size conditions fail, the state is returned unchanged. -/
theorem C5_naked_set_step (unk subset : List Nat) (sp : List Space)
    (q : UniqueQueue) (hU : unk.Nodup) :
    ((futUnion sp subset).length = subset.length ∧
        subset.length < unk.length →
      (∀ k ∈ unk, k ∉ subset →
        ((nakedSubsetStep unk (sp, q) subset).1.getD k default).value =
          (sp.getD k default).value ∧
        ((nakedSubsetStep unk (sp, q) subset).1.getD k default).futures =
          (futUnion sp subset).foldl List.erase (sp.getD k default).futures ∧
        ((sp.getD k default).futures.Nodup →
          ∀ v ∈ futUnion sp subset,
            v ∉ ((nakedSubsetStep unk (sp, q) subset).1.getD k
              default).futures) ∧
        ((∃ v ∈ (sp.getD k default).futures, v ∈ futUnion sp subset) →
          k ∈ (nakedSubsetStep unk (sp, q) subset).2.set)) ∧
      (∀ k, k ∉ unk ∨ k ∈ subset →
        (nakedSubsetStep unk (sp, q) subset).1.getD k default =
          sp.getD k default)) ∧
    (¬((futUnion sp subset).length = subset.length ∧
        subset.length < unk.length) →
      nakedSubsetStep unk (sp, q) subset = (sp, q)) := by
  constructor
  · intro hcond
    have hspec := nakedFold_spec subset (futUnion sp subset) unk (sp, q)
    have hstep : nakedSubsetStep unk (sp, q) subset =
        unk.foldl (nakedCellStep subset (futUnion sp subset)) (sp, q) := by
      unfold nakedSubsetStep
      rw [if_pos hcond]
    constructor
    · intro k hk hks
      obtain ⟨hv, hf, he⟩ := hspec.2.2 hU k hk hks
      rw [hstep]
      refine ⟨hv, hf, ?_, he⟩
      intro hnd v hvn
      rw [hf]
      exact not_mem_foldl_erase (futUnion sp subset) _ hnd v hvn
    · intro k hk
      rw [hstep]
      exact hspec.1 k hk
  · intro hcond
    unfold nakedSubsetStep
    rw [if_neg hcond]

/-- Witness for C5 on the concrete naked pair `{1, 2}` of
`nakedDemoSpaces`. -/
theorem C5_witness :
    ((nakedSubsetStep [0, 1, 2] (nakedDemoSpaces, ⟨[], []⟩) [0, 1]).1.getD 2
        default).futures =
      (futUnion nakedDemoSpaces [0, 1]).foldl List.erase
        (nakedDemoSpaces.getD 2 default).futures ∧
    2 ∈ (nakedSubsetStep [0, 1, 2] (nakedDemoSpaces, ⟨[], []⟩) [0, 1]).2.set := by
  have h := C5_naked_set_step [0, 1, 2] [0, 1] nakedDemoSpaces ⟨[], []⟩
    (by decide)
  have h2 := (h.1 (by decide)).1 2 (by decide) (by decide)
  exact ⟨h2.2.1, h2.2.2.2 (by decide)⟩

/- ------------------------------------------------------------------ -/
/- C1: solved boards have permutation groups                           -/
/- ------------------------------------------------------------------ -/

theorem digit_div {m x y : Nat} (hy : y < m) : (m * x + y) / m = x := by
  have hm : 0 < m := Nat.pos_of_ne_zero fun h => by omega
  rw [Nat.mul_add_div hm, Nat.div_eq_of_lt hy]
  omega

theorem digit_mod {m x y : Nat} (hy : y < m) : (m * x + y) % m = y := by
  rw [Nat.mul_add_mod, Nat.mod_eq_of_lt hy]

theorem mem_rowCells {n g i : Nat} :
    i ∈ rowCells n g ↔ i < n ^ 4 ∧ rowIdx n i = g := by
  simp [rowCells, List.mem_filter, List.mem_range]

theorem mem_colCells {n g i : Nat} :
    i ∈ colCells n g ↔ i < n ^ 4 ∧ colIdx n i = g := by
  simp [colCells, List.mem_filter, List.mem_range]

theorem mem_blockCells {n g i : Nat} :
    i ∈ blockCells n g ↔ i < n ^ 4 ∧ blockIdx n i = g := by
  simp [blockCells, List.mem_filter, List.mem_range]

theorem neighbors_mem {n i j : Nat} (hj : j < n ^ 4) (hne : j ≠ i)
    (hsame : blockIdx n j = blockIdx n i ∨ rowIdx n j = rowIdx n i ∨
      colIdx n j = colIdx n i) : j ∈ neighbors n i := by
  simp [neighbors, List.mem_filter, List.mem_range, hj, hne, hsame]

theorem below_sq {n x y : Nat} (hx : x < n) (hy : y < n) :
    n * x + y < n ^ 2 := by
  calc n * x + y < n * x + n := by omega
  _ = n * (x + 1) := by ring
  _ ≤ n * n := Nat.mul_le_mul_left n (by omega)
  _ = n ^ 2 := (sq n).symm

theorem rowCells_perm (n g : Nat) (hn : 1 ≤ n) (hg : g < n ^ 2) :
    (rowCells n g).Perm ((List.range (n ^ 2)).map fun c => n ^ 2 * g + c) := by
  have hN : 0 < n ^ 2 := pow_pos (by omega) 2
  have hN4 : n ^ 4 = n ^ 2 * n ^ 2 := by ring
  refine (List.perm_ext_iff_of_nodup ?_ ?_).mpr ?_
  · exact List.Nodup.filter _ (List.nodup_range _)
  · exact List.Nodup.map (fun a b hab => by omega) (List.nodup_range _)
  intro a
  rw [mem_rowCells]
  simp only [List.mem_map, List.mem_range]
  constructor
  · rintro ⟨ha4, hrow⟩
    refine ⟨a % n ^ 2, Nat.mod_lt a hN, ?_⟩
    rw [rowIdx] at hrow
    rw [← hrow]
    exact Nat.div_add_mod a (n ^ 2)
  · rintro ⟨c, hc, rfl⟩
    constructor
    · calc n ^ 2 * g + c < n ^ 2 * g + n ^ 2 := by omega
      _ = n ^ 2 * (g + 1) := by ring
      _ ≤ n ^ 2 * n ^ 2 := Nat.mul_le_mul_left _ (by omega)
      _ = n ^ 4 := hN4.symm
    · show (n ^ 2 * g + c) / n ^ 2 = g
      exact digit_div hc

theorem colCells_perm (n g : Nat) (hn : 1 ≤ n) (hg : g < n ^ 2) :
    (colCells n g).Perm ((List.range (n ^ 2)).map fun r => n ^ 2 * r + g) := by
  have hN : 0 < n ^ 2 := pow_pos (by omega) 2
  have hN4 : n ^ 4 = n ^ 2 * n ^ 2 := by ring
  refine (List.perm_ext_iff_of_nodup ?_ ?_).mpr ?_
  · exact List.Nodup.filter _ (List.nodup_range _)
  · exact List.Nodup.map (fun a b hab => by
      have : n ^ 2 * a = n ^ 2 * b := by omega
      exact Nat.eq_of_mul_eq_mul_left hN this) (List.nodup_range _)
  intro a
  rw [mem_colCells]
  simp only [List.mem_map, List.mem_range]
  constructor
  · rintro ⟨ha4, hcol⟩
    refine ⟨a / n ^ 2, (Nat.div_lt_iff_lt_mul hN).mpr (hN4 ▸ ha4), ?_⟩
    rw [colIdx] at hcol
    rw [← hcol]
    exact Nat.div_add_mod a (n ^ 2)
  · rintro ⟨r, hr, rfl⟩
    constructor
    · calc n ^ 2 * r + g < n ^ 2 * r + n ^ 2 := by omega
      _ = n ^ 2 * (r + 1) := by ring
      _ ≤ n ^ 2 * n ^ 2 := Nat.mul_le_mul_left _ (by omega)
      _ = n ^ 4 := hN4.symm
    · show (n ^ 2 * r + g) % n ^ 2 = g
      exact digit_mod hg

theorem blockCells_perm (n g : Nat) (hn : 1 ≤ n) (hg : g < n ^ 2) :
    (blockCells n g).Perm ((List.range (n ^ 2)).map
      fun p => n ^ 2 * (n * (g / n) + p / n) + (n * (g % n) + p % n)) := by
  have hn0 : 0 < n := hn
  have hN : 0 < n ^ 2 := pow_pos hn0 2
  have hnn : n * n = n ^ 2 := (sq n).symm
  have hN4 : n ^ 4 = n ^ 2 * n ^ 2 := by ring
  have hN4' : n ^ 4 = n * (n ^ 2 * n) := by ring
  have hbr : g / n < n := by
    rw [Nat.div_lt_iff_lt_mul hn0, hnn]
    exact hg
  have hbc : g % n < n := Nat.mod_lt g hn0
  have hinj : ∀ p1 p2 : Nat,
      n ^ 2 * (n * (g / n) + p1 / n) + (n * (g % n) + p1 % n) =
        n ^ 2 * (n * (g / n) + p2 / n) + (n * (g % n) + p2 % n) →
      p1 = p2 := by
    intro p1 p2 heq
    have hc1 : n * (g % n) + p1 % n < n ^ 2 :=
      below_sq hbc (Nat.mod_lt p1 hn0)
    have hc2 : n * (g % n) + p2 % n < n ^ 2 :=
      below_sq hbc (Nat.mod_lt p2 hn0)
    have hdiv : n * (g / n) + p1 / n = n * (g / n) + p2 / n := by
      have e1 := digit_div (m := n ^ 2) (x := n * (g / n) + p1 / n) hc1
      have e2 := digit_div (m := n ^ 2) (x := n * (g / n) + p2 / n) hc2
      rw [← e1, ← e2, heq]
    have hmod : n * (g % n) + p1 % n = n * (g % n) + p2 % n := by
      have e1 := digit_mod (m := n ^ 2) (x := n * (g / n) + p1 / n) hc1
      have e2 := digit_mod (m := n ^ 2) (x := n * (g / n) + p2 / n) hc2
      rw [← e1, ← e2, heq]
    have hd : p1 / n = p2 / n := by omega
    have hm : p1 % n = p2 % n := by omega
    have u1 := Nat.div_add_mod p1 n
    have u2 := Nat.div_add_mod p2 n
    rw [hd, hm] at u1
    omega
  refine (List.perm_ext_iff_of_nodup ?_ ?_).mpr ?_
  · exact List.Nodup.filter _ (List.nodup_range _)
  · exact List.Nodup.map (fun a b hab => hinj a b hab) (List.nodup_range _)
  intro a
  rw [mem_blockCells]
  simp only [List.mem_map, List.mem_range]
  constructor
  · rintro ⟨ha4, hbk⟩
    rw [blockIdx] at hbk
    have hd1 : a / n % n < n := Nat.mod_lt _ hn0
    have hd3 : a / (n ^ 2 * n) < n := by
      rw [Nat.div_lt_iff_lt_mul (by positivity), ← hN4']
      exact ha4
    have hgdiv : g / n = a / (n ^ 2 * n) := by
      rw [← hbk, Nat.add_mul_div_left _ _ hn0, Nat.div_eq_of_lt hd1]
      omega
    have hgmod : g % n = a / n % n := by
      rw [← hbk, Nat.add_mul_mod_self_left, Nat.mod_eq_of_lt hd1]
    refine ⟨n * (a / n ^ 2 % n) + a % n,
      below_sq (Nat.mod_lt _ hn0) (Nat.mod_lt a hn0), ?_⟩
    have hp_div : (n * (a / n ^ 2 % n) + a % n) / n = a / n ^ 2 % n :=
      digit_div (Nat.mod_lt a hn0)
    have hp_mod : (n * (a / n ^ 2 % n) + a % n) % n = a % n :=
      digit_mod (Nat.mod_lt a hn0)
    rw [hp_div, hp_mod, hgdiv, hgmod]
    -- the four-digit reconstruction of a
    have hq : a / n ^ 2 = n * (a / (n ^ 2 * n)) + a / n ^ 2 % n := by
      have h := (Nat.div_add_mod (a / n ^ 2) n).symm
      rw [Nat.div_div_eq_div_mul] at h
      exact h
    have hr : a % n ^ 2 = n * (a / n % n) + a % n := by
      have h := (Nat.div_add_mod (a % n ^ 2) n).symm
      have h1 : a % n ^ 2 % n = a % n :=
        Nat.mod_mod_of_dvd a ⟨n, (sq n)⟩
      have h2 : a % n ^ 2 / n = a / n % n := by
        have h3 := Nat.mod_mul_right_div_self a n n
        rw [hnn] at h3
        exact h3
      rw [h1, h2] at h
      exact h
    rw [← hq, ← hr]
    have h := Nat.div_add_mod a (n ^ 2)
    omega
  · rintro ⟨p, hp, rfl⟩
    have hx : p / n < n := by
      rw [Nat.div_lt_iff_lt_mul hn0, hnn]
      exact hp
    have hy : p % n < n := Nat.mod_lt p hn0
    have hr2 : n * (g / n) + p / n < n ^ 2 := below_sq hbr hx
    have hc2 : n * (g % n) + p % n < n ^ 2 := below_sq hbc hy
    constructor
    · calc n ^ 2 * (n * (g / n) + p / n) + (n * (g % n) + p % n)
          < n ^ 2 * (n * (g / n) + p / n) + n ^ 2 := by omega
      _ = n ^ 2 * (n * (g / n) + p / n + 1) := by ring
      _ ≤ n ^ 2 * n ^ 2 := Nat.mul_le_mul_left _ (by omega)
      _ = n ^ 4 := hN4.symm
    · rw [blockIdx]
      have hdiv_n : (n ^ 2 * (n * (g / n) + p / n) +
          (n * (g % n) + p % n)) / n =
          n * (n * (g / n) + p / n) + g % n := by
        have hrw : n ^ 2 * (n * (g / n) + p / n) + (n * (g % n) + p % n) =
            n * (n * (n * (g / n) + p / n) + g % n) + p % n := by ring
        rw [hrw]
        exact digit_div hy
      have hmod_n : (n * (n * (g / n) + p / n) + g % n) % n = g % n :=
        digit_mod hbc
      have hdiv_n3 : (n ^ 2 * (n * (g / n) + p / n) +
          (n * (g % n) + p % n)) / (n ^ 2 * n) = g / n := by
        have hrw : n ^ 2 * (n * (g / n) + p / n) + (n * (g % n) + p % n) =
            (n ^ 2 * n) * (g / n) + (n ^ 2 * (p / n) +
              (n * (g % n) + p % n)) := by ring
        rw [hrw]
        apply digit_div
        calc n ^ 2 * (p / n) + (n * (g % n) + p % n)
            < n ^ 2 * (p / n) + n ^ 2 := by omega
        _ = n ^ 2 * (p / n + 1) := by ring
        _ ≤ n ^ 2 * n := Nat.mul_le_mul_left _ (by omega)
      rw [hdiv_n, hmod_n, hdiv_n3]
      exact Nat.mod_add_div g n

theorem perm_of_nodup_subset_len {α : Type} [DecidableEq α]
    {l1 l2 : List α} (h1 : l1.Nodup) (hsub : l1 ⊆ l2)
    (hlen : l2.length ≤ l1.length) : l1.Perm l2 := by
  obtain ⟨l, hpl, hsl⟩ := List.subperm_of_subset h1 hsub
  have hleq : l.length = l2.length :=
    Nat.le_antisymm hsl.length_le (by rw [hpl.length_eq]; exact hlen)
  have heq : l = l2 := hsl.eq_of_length hleq
  exact (heq ▸ hpl).symm

theorem is_solved_destruct {b : Board} (h : is_solved b = true) :
    (∀ k, k < b.n ^ 4 → (b.spaces.getD k default).value ≠ none) ∧
      has_conflict b = false := by
  unfold is_solved at h
  by_cases h1 : (!b.mod_q.empty) = true
  · rw [if_pos h1] at h
    exact absurd h (by simp)
  · rw [if_neg h1] at h
    by_cases h2 : ((List.range (b.n ^ 4)).any fun k =>
        (b.spaces.getD k default).value.isNone) = true
    · rw [if_pos h2] at h
      exact absurd h (by simp)
    · rw [if_neg h2] at h
      simp only [List.any_eq_true, List.mem_range, not_exists, not_and,
        Bool.not_eq_true, Option.isNone_eq_false_iff,
        Option.isSome_iff_ne_none] at h2
      refine ⟨h2, by simpa using h⟩

theorem no_conflict_distinct {b : Board} (hconf : has_conflict b = false) :
    ∀ k, k < b.n ^ 4 → ∀ j ∈ neighbors b.n k, ∀ v,
      (b.spaces.getD k default).value = some v →
      (b.spaces.getD j default).value ≠ some v := by
  unfold has_conflict at hconf
  rw [Bool.or_eq_false_iff] at hconf
  have h2 := hconf.2
  rw [List.any_eq_false] at h2
  intro k hk j hj v hkv hjv
  have hthis := h2 k (List.mem_range.mpr hk)
  apply hthis
  rw [Bool.and_eq_true]
  constructor
  · rw [hkv]
    rfl
  · rw [List.any_eq_true]
    refine ⟨j, hj, ?_⟩
    rw [hjv, hkv]
    exact beq_self_eq_true _

/-- All values of a group of `n^2` pairwise-neighboring assigned cells of a
solved board form a permutation of `[1, n^2]`. -/
theorem group_values_perm (b : Board) (hsolved : is_solved b = true)
    (hvals : ∀ k, k < b.n ^ 4 →
      (b.spaces.getD k default).value = none ∨
      (b.spaces.getD k default).value ∈ (List.range' 1 (b.n ^ 2)).map some)
    (cells : List Nat) (hnd : cells.Nodup) (hlen : cells.length = b.n ^ 2)
    (hlt : ∀ i ∈ cells, i < b.n ^ 4)
    (hnb : ∀ i ∈ cells, ∀ j ∈ cells, j ≠ i → j ∈ neighbors b.n i) :
    (cells.map fun k => (b.spaces.getD k default).value).Perm
      ((List.range' 1 (b.n ^ 2)).map some) := by
  obtain ⟨hassigned, hconf⟩ := is_solved_destruct hsolved
  have hdist := no_conflict_distinct hconf
  apply perm_of_nodup_subset_len
  · apply List.Nodup.map_on ?_ hnd
    intro i hi j hj hij
    by_contra hne
    obtain ⟨v, hv⟩ := Option.ne_none_iff_exists'.mp
      (hassigned i (hlt i hi))
    have hvj : (b.spaces.getD j default).value = some v := by
      rw [← hij]
      exact hv
    exact hdist i (hlt i hi) j (hnb i hi j hj (Ne.symm hne)) v hv hvj
  · intro a ha
    obtain ⟨k, hk, rfl⟩ := List.mem_map.mp ha
    rcases hvals k (hlt k hk) with h | h
    · exact absurd h (hassigned k (hlt k hk))
    · exact h
  · rw [List.length_map, List.length_map, List.length_range', hlen]

/-- C1 amended: for every board all of whose assigned values lie in
`[1, n^2]` (construction does not enforce this, see C2), if `is_solved`
holds then every row, every column and every block carries each value of
`[1, n^2]` exactly once. -/
theorem C1_amended (b : Board) (hn : 1 ≤ b.n)
    (hvals : ∀ k, k < b.n ^ 4 →
      (b.spaces.getD k default).value = none ∨
      (b.spaces.getD k default).value ∈ (List.range' 1 (b.n ^ 2)).map some)
    (hsolved : is_solved b = true) (g : Nat) (hg : g < b.n ^ 2) :
    ((rowCells b.n g).map fun k => (b.spaces.getD k default).value).Perm
        ((List.range' 1 (b.n ^ 2)).map some) ∧
    ((colCells b.n g).map fun k => (b.spaces.getD k default).value).Perm
        ((List.range' 1 (b.n ^ 2)).map some) ∧
    ((blockCells b.n g).map fun k => (b.spaces.getD k default).value).Perm
        ((List.range' 1 (b.n ^ 2)).map some) := by
  refine ⟨?_, ?_, ?_⟩
  · refine group_values_perm b hsolved hvals (rowCells b.n g) ?_ ?_ ?_ ?_
    · exact List.Nodup.filter _ (List.nodup_range _)
    · rw [(rowCells_perm b.n g hn hg).length_eq, List.length_map,
        List.length_range]
    · intro i hi
      exact (mem_rowCells.mp hi).1
    · intro i hi j hj hne
      apply neighbors_mem (mem_rowCells.mp hj).1 hne
      exact Or.inr (Or.inl
        ((mem_rowCells.mp hj).2.trans (mem_rowCells.mp hi).2.symm))
  · refine group_values_perm b hsolved hvals (colCells b.n g) ?_ ?_ ?_ ?_
    · exact List.Nodup.filter _ (List.nodup_range _)
    · rw [(colCells_perm b.n g hn hg).length_eq, List.length_map,
        List.length_range]
    · intro i hi
      exact (mem_colCells.mp hi).1
    · intro i hi j hj hne
      apply neighbors_mem (mem_colCells.mp hj).1 hne
      exact Or.inr (Or.inr
        ((mem_colCells.mp hj).2.trans (mem_colCells.mp hi).2.symm))
  · refine group_values_perm b hsolved hvals (blockCells b.n g) ?_ ?_ ?_ ?_
    · exact List.Nodup.filter _ (List.nodup_range _)
    · rw [(blockCells_perm b.n g hn hg).length_eq, List.length_map,
        List.length_range]
    · intro i hi
      exact (mem_blockCells.mp hi).1
    · intro i hi j hj hne
      apply neighbors_mem (mem_blockCells.mp hj).1 hne
      exact Or.inl
        ((mem_blockCells.mp hj).2.trans (mem_blockCells.mp hi).2.symm)

/-- C1 counterexample: `badBoard` (constructed from a layout holding the
out-of-range value 99, queue drained) satisfies `is_solved`, yet its row 0
is not a permutation of `[1, 4]`.  The claim as stated, quantifying over
every board that satisfies `is_solved`, is therefore false: it needs the
premise that assigned values lie in `[1, n^2]`. -/
theorem C1_counterexample :
    is_solved badBoard = true ∧
    ¬ ((rowCells 2 0).map fun k =>
        (badBoard.spaces.getD k default).value).Perm
      ((List.range' 1 (2 ^ 2)).map some) := by decide

/-- Witness for C1 on the genuinely solved `goodBoard`. -/
theorem C1_witness :
    ((rowCells 2 0).map fun k =>
        (goodBoard.spaces.getD k default).value).Perm
      ((List.range' 1 (2 ^ 2)).map some) :=
  (C1_amended goodBoard (by decide) (by decide) (by decide) 0 (by decide)).1

end SudokuSpec
